import Mathlib

/-!
Verification of the news-aggregator core: deduplicating ingestion
(`rss_parser.save_articles_to_db`), content normalization
(`rss_parser.clean_html` and the 250-character excerpt cap in
`rss_parser.parse_single_feed`), the similarity engine
(`search.cosine_similarity`), the semantic search service
(`search.semantic_search`), and the enrichment worker
(`openai_summarizer.process_new_articles`).

Shallow embedding conventions:
* Python strings are `String`/`List Char`; floats are `ℝ` (exact-real model
  of the numeric code); machine lists are `List`.
* The external OpenAI collaborators (`generate_embedding`,
  `summarize_single_article` API calls) are parameters: a function giving
  the collaborator's outcome for each input.
* The relational store of articles is a `List Article`; commits are
  explicit state passing, a rollback discards the pending updated record.
-/

namespace NewsAgg

/-- Modelled from the spec: the repository's `models.py` (the `Article`
ORM class imported by `rss_parser`, `search` and `openai_summarizer`) is
not among the provided sources.  Fields follow spec section 3 "DATA
MODEL": `title`, `link` (the unique natural key), `source`, optional
`published_date` (timestamps abstracted as integers), `content`, optional
`summary` and optional `embedding` (numeric vector, modelled over `ℝ`).
The `created_at` wall-clock field is irrelevant to every claim and is
omitted. -/
structure Article where
  title : String
  link : String
  source : String
  published_date : Option Int
  content : String
  summary : Option String
  embedding : Option (List ℝ)

/-- An article candidate produced by `parse_single_feed`: the dict with
keys `title`, `link`, `source`, `published_date`, `content` built at
`rss_parser.py:157-163`. -/
structure Candidate where
  title : String
  link : String
  source : String
  published_date : Option Int
  content : String

/-- The `Article(...)` constructor call at `rss_parser.py:283-289`:
a fresh row with the candidate's fields and no summary or embedding. -/
def article_of (c : Candidate) : Article :=
  { title := c.title
    link := c.link
    source := c.source
    published_date := c.published_date
    content := c.content
    summary := none
    embedding := none }

/-- The duplicate check `db_session.query(Article).filter(Article.link ==
link).first()` at `rss_parser.py:274-276`: does any stored row carry this
link? -/
def linkExists (store : List Article) (l : String) : Bool :=
  store.any (fun a => a.link == l)

/-- STEP 1 of `save_articles_to_db` (`rss_parser.py:256-264`): scan the
candidates in order against the `seen_links` set, keeping a candidate only
when its link has not been seen, and recording each kept link. -/
def dedupLinks : List Candidate → List String → List Candidate
  | [], _ => []
  | c :: rest, seen =>
    if c.link ∈ seen then dedupLinks rest seen
    else c :: dedupLinks rest (c.link :: seen)

/-- One iteration of the STEP 2 loop of `save_articles_to_db`
(`rss_parser.py:271-293`): skip the candidate when its link is already
stored, otherwise insert the new row (an individual commit) and increment
`new_articles_count`. -/
def saveStep (acc : List Article × Nat) (c : Candidate) : List Article × Nat :=
  if linkExists acc.1 c.link then acc
  else (acc.1 ++ [article_of c], acc.2 + 1)

/-- `save_articles_to_db(articles, db_session)` (`rss_parser.py:236-307`):
in-batch deduplication by link, then per-candidate insert-if-absent with
individual commits; returns the updated store together with the count of
newly inserted rows. -/
def save_articles_to_db (cands : List Candidate) (store : List Article) :
    List Article × Nat :=
  List.foldl saveStep (store, 0) (dedupLinks cands [])

/-- The spec's wording of in-batch deduplication ("keep the first
occurrence of each `link`, drop later duplicates within the same batch"),
stated as its own recursion to be compared with `dedupLinks`. -/
def keepFirstOcc : List Candidate → List Candidate
  | [] => []
  | c :: rest => c :: keepFirstOcc (rest.filter (fun b => b.link ≠ c.link))
  termination_by l => l.length
  decreasing_by
    simp only [List.length_cons]
    exact Nat.lt_succ_of_le (List.length_filter_le _ _)

theorem linkExists_append (store : List Article) (xs : List Article) (l : String)
    (h : linkExists store l = true) : linkExists (store ++ xs) l = true := by
  simp only [linkExists, List.any_append, Bool.or_eq_true]
  exact Or.inl h

theorem linkExists_article_of (store : List Article) (c : Candidate) :
    linkExists (store ++ [article_of c]) c.link = true := by
  simp [linkExists, List.any_append, article_of]

/-- The store only grows along the STEP 2 loop: a link present before the
loop is present after it. -/
theorem foldl_saveStep_mono (U : List Candidate) :
    ∀ st n l, linkExists st l = true →
      linkExists (List.foldl saveStep (st, n) U).1 l = true := by
  induction U with
  | nil => intro st n l h; simpa using h
  | cons c rest ih =>
    intro st n l h
    simp only [List.foldl_cons]
    by_cases hc : linkExists st c.link = true
    · simpa [saveStep, hc] using ih st n l h
    · simp only [saveStep, hc, if_neg, Bool.false_eq_true, if_false]
      exact ih _ _ l (linkExists_append st _ l h)

/-- After the STEP 2 loop, every processed candidate's link is stored. -/
theorem foldl_saveStep_covers (U : List Candidate) :
    ∀ st n c, c ∈ U →
      linkExists (List.foldl saveStep (st, n) U).1 c.link = true := by
  induction U with
  | nil => intro st n c h; cases h
  | cons u rest ih =>
    intro st n c h
    simp only [List.foldl_cons]
    rcases List.mem_cons.mp h with rfl | hmem
    · by_cases hc : linkExists st c.link = true
      · simp only [saveStep, hc, if_true]
        exact foldl_saveStep_mono rest st n c.link hc
      · simp only [saveStep, hc, Bool.false_eq_true, if_false]
        exact foldl_saveStep_mono rest _ _ c.link (linkExists_article_of st c)
    · by_cases hc : linkExists st u.link = true
      · simpa [saveStep, hc] using ih st n c hmem
      · simp only [saveStep, hc, Bool.false_eq_true, if_false]
        exact ih _ _ c hmem

/-- When every candidate's link is already stored, the STEP 2 loop is a
no-op: the store and the counter are unchanged. -/
theorem foldl_saveStep_allPresent (U : List Candidate) :
    ∀ st n, (∀ c ∈ U, linkExists st c.link = true) →
      List.foldl saveStep (st, n) U = (st, n) := by
  induction U with
  | nil => intro st n _; rfl
  | cons u rest ih =>
    intro st n h
    have hu : linkExists st u.link = true := h u (List.mem_cons_self u rest)
    simp only [List.foldl_cons, saveStep, hu, if_true]
    exact ih st n (fun c hc => h c (List.mem_cons_of_mem u hc))

theorem keepFirstOcc_nil : keepFirstOcc [] = [] := by
  rw [keepFirstOcc.eq_def]

theorem keepFirstOcc_cons (c : Candidate) (rest : List Candidate) :
    keepFirstOcc (c :: rest)
      = c :: keepFirstOcc (rest.filter (fun b => b.link ≠ c.link)) := by
  rw [keepFirstOcc.eq_def]

theorem dedupLinks_eq_keepFirstOcc_filter :
    ∀ (l : List Candidate) (seen : List String),
      dedupLinks l seen = keepFirstOcc (l.filter (fun c => c.link ∉ seen)) := by
  intro l
  induction l with
  | nil => intro seen; simp [dedupLinks, keepFirstOcc_nil]
  | cons c rest ih =>
    intro seen
    by_cases h : c.link ∈ seen
    · rw [List.filter_cons_of_neg (by simpa using h)]
      simp only [dedupLinks, h, if_true]
      exact ih seen
    · rw [List.filter_cons_of_pos (by simpa using h), keepFirstOcc_cons,
        List.filter_filter]
      simp only [dedupLinks, h, if_false]
      rw [ih (c.link :: seen)]
      congr 1
      congr 1
      apply List.filter_congr
      intro b _
      by_cases hb : b.link = c.link <;> by_cases hbs : b.link ∈ seen <;>
        simp [hb, hbs]

theorem keepFirstOcc_sublist_bounded :
    ∀ (n : Nat) (l : List Candidate), l.length ≤ n →
      List.Sublist (keepFirstOcc l) l := by
  intro n
  induction n with
  | zero =>
    intro l h
    have hl : l = [] := List.length_eq_zero.mp (Nat.le_zero.mp h)
    subst hl
    simp [keepFirstOcc_nil]
  | succ n ih =>
    intro l h
    match l with
    | [] => simp [keepFirstOcc_nil]
    | c :: rest =>
      rw [keepFirstOcc_cons]
      apply List.Sublist.cons₂
      have hlen : (rest.filter (fun b => b.link ≠ c.link)).length ≤ n :=
        le_trans (List.length_filter_le _ _)
          (Nat.le_of_succ_le_succ (by simpa using h))
      exact (ih _ hlen).trans (List.filter_sublist rest)

theorem keepFirstOcc_sublist (l : List Candidate) :
    List.Sublist (keepFirstOcc l) l :=
  keepFirstOcc_sublist_bounded l.length l le_rfl

/-- C3: re-running `save_articles_to_db` on the same candidate list leaves
the store exactly as the first run left it (in particular with the same
size) and newly stores nothing, and a single candidate whose `link` is
already stored is skipped as a no-op: no row added, count 0, no error
(the function is total). -/
theorem save_articles_idempotent :
    (∀ (cands : List Candidate) (store : List Article),
      save_articles_to_db cands (save_articles_to_db cands store).1
          = ((save_articles_to_db cands store).1, 0)
        ∧ (save_articles_to_db cands (save_articles_to_db cands store).1).1.length
          = (save_articles_to_db cands store).1.length)
    ∧ ∀ (c : Candidate) (store : List Article),
        linkExists store c.link = true →
        save_articles_to_db [c] store = (store, 0) := by
  constructor
  · intro cands store
    have hcov : ∀ x ∈ dedupLinks cands [],
        linkExists (save_articles_to_db cands store).1 x.link = true :=
      fun x hx => foldl_saveStep_covers (dedupLinks cands []) store 0 x hx
    have h2 : save_articles_to_db cands (save_articles_to_db cands store).1
        = ((save_articles_to_db cands store).1, 0) :=
      foldl_saveStep_allPresent (dedupLinks cands []) _ 0 hcov
    exact ⟨h2, by rw [h2]⟩
  · intro c store h
    simp [save_articles_to_db, dedupLinks, saveStep, h]

/-- Witness for `save_articles_idempotent`: a concrete candidate whose
link is already stored is left unstored with count 0. -/
theorem save_articles_idempotent_witness :
    linkExists [article_of ⟨"t", "L", "s", none, "c"⟩] "L" = true
    ∧ save_articles_to_db [⟨"t", "L", "s", none, "c"⟩]
        [article_of ⟨"t", "L", "s", none, "c"⟩]
      = ([article_of ⟨"t", "L", "s", none, "c"⟩], 0) :=
  ⟨by decide,
   save_articles_idempotent.2 ⟨"t", "L", "s", none, "c"⟩
     [article_of ⟨"t", "L", "s", none, "c"⟩] (by decide)⟩

/-- C4: in-batch deduplication keeps exactly the first occurrence of each
link in first-seen order — `dedupLinks` run on a fresh `seen` set equals
the spec-shaped `keepFirstOcc` recursion and is an order-preserving
sublist of the batch — and a batch of two candidates sharing one link,
persisted into an empty store, stores exactly one row with that link. -/
theorem dedup_keeps_first_occurrence :
    (∀ cands : List Candidate,
      dedupLinks cands [] = keepFirstOcc cands ∧ List.Sublist (dedupLinks cands []) cands)
    ∧ ∀ a b : Candidate, a.link = b.link →
        save_articles_to_db [a, b] [] = ([article_of a], 1)
        ∧ (save_articles_to_db [a, b] []).1.countP
            (fun r => r.link == a.link) = 1 := by
  constructor
  · intro cands
    have h : dedupLinks cands [] = keepFirstOcc cands := by
      rw [dedupLinks_eq_keepFirstOcc_filter cands []]
      congr 1
      simp
    exact ⟨h, h ▸ keepFirstOcc_sublist cands⟩
  · intro a b hab
    have hd : dedupLinks [a, b] [] = [a] := by
      simp [dedupLinks, hab]
    constructor
    · simp [save_articles_to_db, hd, saveStep, linkExists]
    · simp [save_articles_to_db, hd, saveStep, linkExists, article_of]

/-- Witness for `dedup_keeps_first_occurrence`: two concrete candidates
with the same link, of which exactly the first is stored. -/
theorem dedup_keeps_first_occurrence_witness :
    (⟨"t1", "L", "s1", none, "c1"⟩ : Candidate).link
      = (⟨"t2", "L", "s2", none, "c2"⟩ : Candidate).link
    ∧ save_articles_to_db
        [⟨"t1", "L", "s1", none, "c1"⟩, ⟨"t2", "L", "s2", none, "c2"⟩] []
      = ([article_of ⟨"t1", "L", "s1", none, "c1"⟩], 1) :=
  ⟨rfl,
   (dedup_keeps_first_occurrence.2 ⟨"t1", "L", "s1", none, "c1"⟩
     ⟨"t2", "L", "s2", none, "c2"⟩ rfl).1⟩

/-- `np.dot(v1, v2)` on two equal-length 1-D arrays (`search.py:42`):
the sum of pointwise products. -/
noncomputable def dotList (a b : List ℝ) : ℝ := (List.zipWith (· * ·) a b).sum

theorem dotList_nil_left (b : List ℝ) : dotList [] b = 0 := by
  simp [dotList]

theorem dotList_nil_right (a : List ℝ) : dotList a [] = 0 := by
  simp [dotList]

theorem dotList_cons (x y : ℝ) (xs ys : List ℝ) :
    dotList (x :: xs) (y :: ys) = x * y + dotList xs ys := by
  simp [dotList]

theorem dotList_self_nonneg (l : List ℝ) : 0 ≤ dotList l l := by
  induction l with
  | nil => simp [dotList]
  | cons x xs ih =>
    rw [dotList_cons]
    exact add_nonneg (mul_self_nonneg x) ih

theorem dotList_self_pos {l : List ℝ} {x : ℝ} (hx : x ∈ l) (hx0 : x ≠ 0) :
    0 < dotList l l := by
  induction l with
  | nil => cases hx
  | cons y ys ih =>
    rw [dotList_cons]
    rcases List.mem_cons.mp hx with rfl | hmem
    · exact add_pos_of_pos_of_nonneg (mul_self_pos.mpr hx0)
        (dotList_self_nonneg ys)
    · exact add_pos_of_nonneg_of_pos (mul_self_nonneg y) (ih hmem)

theorem dotList_map_neg_left (a : List ℝ) :
    ∀ b : List ℝ, dotList (a.map (fun t => -t)) b = -dotList a b := by
  induction a with
  | nil => intro b; simp [dotList]
  | cons x xs ih =>
    intro b
    cases b with
    | nil => simp [dotList]
    | cons y ys =>
      simp only [List.map_cons, dotList_cons, ih ys]
      ring

theorem dotList_self_map_neg (l : List ℝ) :
    dotList (l.map (fun t => -t)) (l.map (fun t => -t)) = dotList l l := by
  induction l with
  | nil => simp [dotList]
  | cons x xs ih =>
    simp only [List.map_cons, dotList_cons, ih]
    ring_nf

/-- Cauchy-Schwarz for list dot products, square-root form. -/
theorem dotList_le_sqrt_mul_sqrt (a : List ℝ) :
    ∀ b : List ℝ,
      dotList a b ≤ Real.sqrt (dotList a a) * Real.sqrt (dotList b b) := by
  induction a with
  | nil =>
    intro b
    simp [dotList_nil_left, mul_nonneg, Real.sqrt_nonneg]
  | cons x xs ih =>
    intro b
    cases b with
    | nil =>
      simp [dotList_nil_right, mul_nonneg, Real.sqrt_nonneg]
    | cons y ys =>
      have hA : (0 : ℝ) ≤ dotList xs xs := dotList_self_nonneg xs
      have hB : (0 : ℝ) ≤ dotList ys ys := dotList_self_nonneg ys
      have key : x * y + Real.sqrt (dotList xs xs) * Real.sqrt (dotList ys ys)
          ≤ Real.sqrt (x * x + dotList xs xs)
            * Real.sqrt (y * y + dotList ys ys) := by
        have h := Real.sum_mul_le_sqrt_mul_sqrt (Finset.range 2)
          (fun i => if i = 0 then x else Real.sqrt (dotList xs xs))
          (fun i => if i = 0 then y else Real.sqrt (dotList ys ys))
        simp only [Finset.sum_range_succ, Finset.sum_range_one] at h
        norm_num at h
        rwa [Real.sq_sqrt hA, Real.sq_sqrt hB, pow_two x, pow_two y] at h
      calc dotList (x :: xs) (y :: ys)
          = x * y + dotList xs ys := dotList_cons x y xs ys
        _ ≤ x * y + Real.sqrt (dotList xs xs) * Real.sqrt (dotList ys ys) :=
            add_le_add_left (ih ys) _
        _ ≤ Real.sqrt (x * x + dotList xs xs)
            * Real.sqrt (y * y + dotList ys ys) := key
        _ = Real.sqrt (dotList (x :: xs) (x :: xs))
            * Real.sqrt (dotList (y :: ys) (y :: ys)) := by
            rw [dotList_cons, dotList_cons]

theorem neg_sqrt_mul_sqrt_le_dotList (a b : List ℝ) :
    -(Real.sqrt (dotList a a) * Real.sqrt (dotList b b)) ≤ dotList a b := by
  have h := dotList_le_sqrt_mul_sqrt (a.map (fun t => -t)) b
  rw [dotList_map_neg_left, dotList_self_map_neg] at h
  linarith

/-- `cosine_similarity(vec1, vec2)` (`search.py:21-60`) over the
exact-real model of the float code.  Branches in source order: the Python
falsiness check `if not vec1 or not vec2` on the input lists; the
`np.dot` call, which raises on mismatched 1-D shapes and is caught by the
surrounding `except` returning `0.0` (the length branch); the
division-by-zero guard on the norms; and the remapped quotient. -/
noncomputable def cosine_similarity (vec1 vec2 : List ℝ) : ℝ :=
  if vec1.isEmpty || vec2.isEmpty then 0
  else if vec1.length ≠ vec2.length then 0
  else
    let norm_v1 := Real.sqrt (dotList vec1 vec1)
    let norm_v2 := Real.sqrt (dotList vec2 vec2)
    if norm_v1 = 0 ∨ norm_v2 = 0 then 0
    else (dotList vec1 vec2 / (norm_v1 * norm_v2) + 1) / 2

/-- C5: every similarity score lies in `[0, 1]`; degenerate inputs score
`0`, and in the main branch the score is the Cauchy-Schwarz-bounded
cosine remapped through `(cosine + 1) / 2`. -/
theorem cosine_similarity_mem_unit :
    ∀ v1 v2 : List ℝ,
      (0 ≤ cosine_similarity v1 v2 ∧ cosine_similarity v1 v2 ≤ 1)
      ∧ (v1.isEmpty = false → v2.isEmpty = false → v1.length = v2.length →
          Real.sqrt (dotList v1 v1) ≠ 0 → Real.sqrt (dotList v2 v2) ≠ 0 →
          cosine_similarity v1 v2
            = (dotList v1 v2
                / (Real.sqrt (dotList v1 v1) * Real.sqrt (dotList v2 v2))
                + 1) / 2) := by
  intro v1 v2
  constructor
  · unfold cosine_similarity
    by_cases h1 : (v1.isEmpty || v2.isEmpty) = true
    · simp [h1]
    · rw [if_neg h1]
      by_cases h2 : v1.length ≠ v2.length
      · simp [h2]
      · rw [if_neg h2]
        by_cases h3 : Real.sqrt (dotList v1 v1) = 0
            ∨ Real.sqrt (dotList v2 v2) = 0
        · simp only [h3, if_true]
          norm_num
        · simp only [h3, if_false]
          push_neg at h3
          have hn1 : 0 < Real.sqrt (dotList v1 v1) :=
            lt_of_le_of_ne (Real.sqrt_nonneg _) (Ne.symm h3.1)
          have hn2 : 0 < Real.sqrt (dotList v2 v2) :=
            lt_of_le_of_ne (Real.sqrt_nonneg _) (Ne.symm h3.2)
          have hprod : 0 < Real.sqrt (dotList v1 v1)
              * Real.sqrt (dotList v2 v2) := mul_pos hn1 hn2
          have hub := dotList_le_sqrt_mul_sqrt v1 v2
          have hlb := neg_sqrt_mul_sqrt_le_dotList v1 v2
          have hq1 : dotList v1 v2
              / (Real.sqrt (dotList v1 v1) * Real.sqrt (dotList v2 v2)) ≤ 1 :=
            (div_le_one hprod).mpr hub
          have hq2 : (-1 : ℝ) ≤ dotList v1 v2
              / (Real.sqrt (dotList v1 v1) * Real.sqrt (dotList v2 v2)) := by
            rw [le_div_iff₀ hprod]
            linarith
          constructor <;> linarith
  · intro h1 h2 h3 h4 h5
    unfold cosine_similarity
    rw [if_neg (by simp [h1, h2]), if_neg (by simp [h3]),
      if_neg (by simp [h4, h5])]

/-- Witness for `cosine_similarity_mem_unit` at `v1 = v2 = [1]`. -/
theorem cosine_similarity_mem_unit_witness :
    Real.sqrt (dotList [(1 : ℝ)] [(1 : ℝ)]) ≠ 0
    ∧ cosine_similarity [(1 : ℝ)] [(1 : ℝ)]
        = (dotList [(1 : ℝ)] [(1 : ℝ)]
            / (Real.sqrt (dotList [(1 : ℝ)] [(1 : ℝ)])
              * Real.sqrt (dotList [(1 : ℝ)] [(1 : ℝ)])) + 1) / 2 := by
  have h : Real.sqrt (dotList [(1 : ℝ)] [(1 : ℝ)]) ≠ 0 := by
    simp [dotList, Real.sqrt_one]
  exact ⟨h, (cosine_similarity_mem_unit [1] [1]).2 rfl rfl rfl h h⟩

/-- C9: on any vector with a non-zero coordinate, the self-similarity is
exactly `1`: the dot product over the squared norm is `1` and the remap
sends it to `(1 + 1) / 2 = 1`. -/
theorem cosine_similarity_self :
    ∀ v : List ℝ, (∃ x ∈ v, x ≠ 0) → cosine_similarity v v = 1 := by
  intro v hv
  obtain ⟨x, hx, hx0⟩ := hv
  have hne : v.isEmpty = false := by
    cases v with
    | nil => cases hx
    | cons y ys => rfl
  have hd : 0 < dotList v v := dotList_self_pos hx hx0
  have hs : Real.sqrt (dotList v v) ≠ 0 :=
    ne_of_gt (Real.sqrt_pos.mpr hd)
  unfold cosine_similarity
  rw [if_neg (by simp [hne]), if_neg (by simp), if_neg (by simp [hs])]
  rw [Real.mul_self_sqrt hd.le, div_self (ne_of_gt hd)]
  norm_num

/-- Witness for `cosine_similarity_self` at `v = [1]`. -/
theorem cosine_similarity_self_witness :
    (∃ x ∈ [(1 : ℝ)], x ≠ 0) ∧ cosine_similarity [(1 : ℝ)] [(1 : ℝ)] = 1 :=
  ⟨⟨1, by simp⟩, cosine_similarity_self [1] ⟨1, by simp⟩⟩

/-- Python `str.isspace`-class characters stripped by `str.strip()`
(ASCII range, which covers feed queries). -/
def isPySpace (c : Char) : Bool :=
  c = ' ' || c = '\t' || c = '\n' || c = '\r' || c = '\x0b' || c = '\x0c'

/-- Python `query.strip()`: drop leading and trailing whitespace. -/
def pyStrip (s : String) : String :=
  ⟨((s.data.dropWhile isPySpace).reverse.dropWhile isPySpace).reverse⟩

/-- Result of a `semantic_search` run together with the number of calls
made to the embedding collaborator (the effect the code performs at
`search.py:90`), made explicit for the shallow embedding. -/
structure SearchOutput where
  results : List (Article × ℝ)
  embedCalls : Nat

theorem SearchOutput.ext_eq (a b : SearchOutput)
    (h1 : a.results = b.results) (h2 : a.embedCalls = b.embedCalls) :
    a = b := by
  cases a; cases b; simp_all

/-- The scoring loop of `semantic_search` (`search.py:110-125`): articles
whose embedding is Python-falsy (`if not article_embedding: continue`,
line 115-116 — absent or the empty list) are skipped before scoring;
every other article is paired with its cosine score. -/
noncomputable def scoreArticles (query_embedding : List ℝ) :
    List Article → List (Article × ℝ)
  | [] => []
  | a :: rest =>
    match a.embedding with
    | none => scoreArticles query_embedding rest
    | some [] => scoreArticles query_embedding rest
    | some emb =>
      (a, cosine_similarity query_embedding emb)
        :: scoreArticles query_embedding rest

/-- Stable descending insertion by score: the earlier-scanned pair stays
in front of any later pair with an equal score, matching the stable
`list.sort(key=lambda x: x[1], reverse=True)` at `search.py:128`. -/
noncomputable def insertDesc (x : Article × ℝ) :
    List (Article × ℝ) → List (Article × ℝ)
  | [] => [x]
  | y :: ys => if y.2 ≤ x.2 then x :: y :: ys else y :: insertDesc x ys

/-- Stable sort by score descending, the model of `search.py:128`
(`article_scores.sort(key=lambda x: x[1], reverse=True)`; Python's sort
is stable, and a stable descending sort is uniquely determined, so any
stable sorting algorithm gives the same list). -/
noncomputable def sortDesc : List (Article × ℝ) → List (Article × ℝ)
  | [] => []
  | x :: xs => insertDesc x (sortDesc xs)

/-- `semantic_search(query, db_session, limit, min_similarity)`
(`search.py:63-152`).  The embedding collaborator is the parameter
`embed`; `none` models `generate_embedding` raising (landing in the outer
`except`, which returns `[]`).  The store rows with a non-absent
embedding model the `Article.embedding.isnot(None)` query filter
(`search.py:97-99`).  Scores are sorted descending, then filtered by the
threshold, then truncated to `limit` — in exactly the source's order. -/
noncomputable def semantic_search (embed : String → Option (List ℝ))
    (query : String) (store : List Article) (lim : Nat)
    (min_similarity : ℝ) : SearchOutput :=
  if pyStrip query = "" then ⟨[], 0⟩
  else
    match embed query with
    | none => ⟨[], 1⟩
    | some query_embedding =>
      if query_embedding.isEmpty then ⟨[], 1⟩
      else
        let withEmb := store.filter (fun a => a.embedding.isSome)
        if withEmb.isEmpty then ⟨[], 1⟩
        else
          let sorted := sortDesc (scoreArticles query_embedding withEmb)
          let filtered := sorted.filter (fun x => min_similarity ≤ x.2)
          ⟨filtered.take lim, 1⟩

theorem mem_insertDesc (z x : Article × ℝ) :
    ∀ l, z ∈ insertDesc x l ↔ z = x ∨ z ∈ l := by
  intro l
  induction l with
  | nil => simp [insertDesc]
  | cons y ys ih =>
    by_cases h : y.2 ≤ x.2
    · simp [insertDesc, h]
    · simp only [insertDesc, h, if_false, List.mem_cons, ih]
      tauto

theorem mem_sortDesc (z : Article × ℝ) :
    ∀ l, z ∈ sortDesc l ↔ z ∈ l := by
  intro l
  induction l with
  | nil => simp [sortDesc]
  | cons x xs ih =>
    simp [sortDesc, mem_insertDesc, ih]

theorem insertDesc_eq_cons (x : Article × ℝ) :
    ∀ l, (∀ z ∈ l, z.2 ≤ x.2) → insertDesc x l = x :: l := by
  intro l h
  cases l with
  | nil => rfl
  | cons y ys =>
    simp only [insertDesc, if_pos (h y (List.mem_cons_self y ys))]

theorem sorted_insertDesc (x : Article × ℝ) :
    ∀ l, List.Sorted (fun u v : Article × ℝ => v.2 ≤ u.2) l →
      List.Sorted (fun u v : Article × ℝ => v.2 ≤ u.2) (insertDesc x l) := by
  intro l
  induction l with
  | nil => intro _; simp [insertDesc]
  | cons y ys ih =>
    intro hs
    rcases List.sorted_cons.mp hs with ⟨hy, hys⟩
    by_cases h : y.2 ≤ x.2
    · rw [insertDesc, if_pos h]
      refine List.sorted_cons.mpr ⟨?_, hs⟩
      intro z hz
      rcases List.mem_cons.mp hz with rfl | hmem
      · exact h
      · exact le_trans (hy z hmem) h
    · rw [insertDesc, if_neg h]
      refine List.sorted_cons.mpr ⟨?_, ih hys⟩
      intro z hz
      rcases (mem_insertDesc z x ys).mp hz with rfl | hmem
      · exact le_of_not_le h
      · exact hy z hmem

theorem sorted_sortDesc :
    ∀ l, List.Sorted (fun u v : Article × ℝ => v.2 ≤ u.2) (sortDesc l) := by
  intro l
  induction l with
  | nil => simp [sortDesc]
  | cons x xs ih => exact sorted_insertDesc x (sortDesc xs) ih

theorem filter_insertDesc (p : Article × ℝ → Bool) (x : Article × ℝ) :
    ∀ l, List.Sorted (fun u v : Article × ℝ => v.2 ≤ u.2) l →
      (insertDesc x l).filter p
        = if p x then insertDesc x (l.filter p) else l.filter p := by
  intro l
  induction l with
  | nil =>
    intro _
    by_cases hp : p x <;> simp [insertDesc, hp]
  | cons y ys ih =>
    intro hs
    rcases List.sorted_cons.mp hs with ⟨hy, hys⟩
    by_cases h : y.2 ≤ x.2
    · rw [insertDesc, if_pos h]
      by_cases hp : p x
      · rw [List.filter_cons_of_pos hp]
        rw [if_pos hp]
        have hall : ∀ z ∈ (y :: ys).filter p, z.2 ≤ x.2 := by
          intro z hz
          rcases List.mem_cons.mp (List.mem_of_mem_filter hz) with rfl | h'
          · exact h
          · exact le_trans (hy z h') h
        rw [insertDesc_eq_cons x _ hall]
      · rw [List.filter_cons_of_neg (by simpa using hp), if_neg hp]
    · rw [insertDesc, if_neg h]
      by_cases hpy : p y
      · rw [List.filter_cons_of_pos hpy, List.filter_cons_of_pos hpy,
          ih hys]
        by_cases hp : p x
        · rw [if_pos hp, if_pos hp]
          rw [insertDesc, if_neg h]
        · rw [if_neg hp, if_neg hp]
      · rw [List.filter_cons_of_neg (by simpa using hpy),
          List.filter_cons_of_neg (by simpa using hpy), ih hys]

theorem filter_sortDesc (p : Article × ℝ → Bool) :
    ∀ l, (sortDesc l).filter p = sortDesc (l.filter p) := by
  intro l
  induction l with
  | nil => simp [sortDesc]
  | cons x xs ih =>
    rw [sortDesc, filter_insertDesc p x (sortDesc xs) (sorted_sortDesc xs), ih]
    by_cases hp : p x
    · rw [if_pos hp, List.filter_cons_of_pos hp, sortDesc]
    · rw [if_neg hp, List.filter_cons_of_neg (by simpa using hp)]

/-- C2: whenever the query survives the emptiness guard and the embedding
collaborator returns a non-empty query vector, the returned sequence is
exactly the first `lim` elements of the score-descending sort of the
scored articles restricted to scores at or above the threshold;
consequently every returned score meets the threshold, at most `lim`
results are returned, and scores are non-increasing. -/
theorem search_filter_before_truncate :
    ∀ (embed : String → Option (List ℝ)) (query : String)
      (store : List Article) (lim : Nat) (min_similarity : ℝ)
      (qe : List ℝ),
      pyStrip query ≠ "" → embed query = some qe → qe.isEmpty = false →
      ((semantic_search embed query store lim min_similarity).results
          = (sortDesc ((scoreArticles qe
                (store.filter (fun a => a.embedding.isSome))).filter
              (fun x => decide (min_similarity ≤ x.2)))).take lim)
      ∧ (∀ x ∈ (semantic_search embed query store lim min_similarity).results,
          min_similarity ≤ x.2)
      ∧ (semantic_search embed query store lim min_similarity).results.length
          ≤ lim
      ∧ List.Sorted (fun u v : Article × ℝ => v.2 ≤ u.2)
          (semantic_search embed query store lim min_similarity).results := by
  intro embed query store lim min_similarity qe hq hemb hqe
  have hres : (semantic_search embed query store lim min_similarity).results
      = ((sortDesc (scoreArticles qe
            (store.filter (fun a => a.embedding.isSome)))).filter
          (fun x => decide (min_similarity ≤ x.2))).take lim := by
    unfold semantic_search
    rw [if_neg hq, hemb]
    simp only [hqe, Bool.false_eq_true, if_false]
    by_cases hw : (store.filter (fun a => a.embedding.isSome)).isEmpty = true
    · have hwnil : store.filter (fun a => a.embedding.isSome) = [] :=
        List.isEmpty_iff.mp hw
      simp [hw, hwnil, scoreArticles, sortDesc]
    · simp only [hw, Bool.false_eq_true, if_false]
  refine ⟨?_, ?_, ?_, ?_⟩
  · rw [hres, filter_sortDesc]
  · intro x hx
    rw [hres] at hx
    have hx2 := List.mem_of_mem_take hx
    exact of_decide_eq_true (List.mem_filter.mp hx2).2
  · rw [hres]
    exact List.length_take_le lim _
  · rw [hres]
    exact List.Pairwise.sublist
      ((List.take_sublist lim _).trans (List.filter_sublist _))
      (sorted_sortDesc _)

/-- Witness for `search_filter_before_truncate` at a concrete query,
collaborator and (empty) store. -/
theorem search_filter_before_truncate_witness :
    pyStrip "a" ≠ ""
    ∧ (fun _ : String => some [(1 : ℝ)]) "a" = some [(1 : ℝ)]
    ∧ ([(1 : ℝ)] : List ℝ).isEmpty = false
    ∧ (semantic_search (fun _ => some [(1 : ℝ)]) "a" [] 10 0).results
        = (sortDesc ((scoreArticles [(1 : ℝ)]
              (List.filter (fun a => a.embedding.isSome) [])).filter
            (fun x => decide ((0 : ℝ) ≤ x.2)))).take 10 :=
  ⟨by decide, rfl, rfl,
   (search_filter_before_truncate (fun _ => some [(1 : ℝ)]) "a" [] 10 0
     [(1 : ℝ)] (by decide) rfl rfl).1⟩

/-- C6: an empty or whitespace-only query short-circuits: the result is
the empty sequence and the embedding collaborator is never invoked
(`embedCalls = 0`). -/
theorem empty_query_short_circuits :
    ∀ (embed : String → Option (List ℝ)) (query : String)
      (store : List Article) (lim : Nat) (min_similarity : ℝ),
      pyStrip query = "" →
      semantic_search embed query store lim min_similarity
        = ⟨[], 0⟩ := by
  intro embed query store lim min_similarity hq
  unfold semantic_search
  rw [if_pos hq]

/-- Witness for `empty_query_short_circuits` on the spec's two test
queries `""` and `"   "`. -/
theorem empty_query_short_circuits_witness :
    pyStrip "" = "" ∧ pyStrip "   " = ""
    ∧ semantic_search (fun _ => none) "" [] 10 0 = ⟨[], 0⟩
    ∧ semantic_search (fun _ => none) "   " [] 10 0 = ⟨[], 0⟩ :=
  ⟨by decide, by decide,
   empty_query_short_circuits (fun _ => none) "" [] 10 0 (by decide),
   empty_query_short_circuits (fun _ => none) "   " [] 10 0 (by decide)⟩

/-- Does the article carry a present-but-empty embedding vector? -/
def hasEmptyEmbedding (a : Article) : Bool :=
  match a.embedding with
  | some [] => true
  | _ => false

theorem scoreArticles_no_empty_embedding (qe : List ℝ) :
    ∀ l (x : Article × ℝ), x ∈ scoreArticles qe l →
      hasEmptyEmbedding x.1 = false := by
  intro l
  induction l with
  | nil => intro x hx; cases hx
  | cons a rest ih =>
    intro x hx
    match ha : a.embedding with
    | none =>
      rw [scoreArticles, ha] at hx
      exact ih x hx
    | some [] =>
      rw [scoreArticles, ha] at hx
      exact ih x hx
    | some (e :: es) =>
      rw [scoreArticles, ha] at hx
      rcases List.mem_cons.mp hx with rfl | hmem
      · simp [hasEmptyEmbedding, ha]
      · exact ih x hmem

/-- C10: an article whose embedding is present but empty never appears in
any search result: filtering any run's results for empty-embedding
articles leaves nothing, for every threshold (including `0`), query,
collaborator and store. -/
theorem empty_embedding_never_in_results :
    ∀ (embed : String → Option (List ℝ)) (query : String)
      (store : List Article) (lim : Nat) (min_similarity : ℝ),
      (semantic_search embed query store lim min_similarity).results.filter
        (fun x => hasEmptyEmbedding x.1) = [] := by
  intro embed query store lim min_similarity
  apply List.filter_eq_nil_iff.mpr
  intro x hx
  unfold semantic_search at hx
  by_cases hq : pyStrip query = ""
  · rw [if_pos hq] at hx; cases hx
  · rw [if_neg hq] at hx
    match hemb : embed query with
    | none => rw [hemb] at hx; cases hx
    | some qe =>
      rw [hemb] at hx
      simp only [] at hx
      by_cases hqe : qe.isEmpty = true
      · rw [if_pos hqe] at hx; cases hx
      · rw [if_neg hqe] at hx
        by_cases hw : (store.filter (fun a => a.embedding.isSome)).isEmpty
            = true
        · rw [if_pos hw] at hx; cases hx
        · rw [if_neg hw] at hx
          simp only [] at hx
          have hx2 : x ∈ scoreArticles qe
              (store.filter (fun a => a.embedding.isSome)) :=
            (mem_sortDesc x _).mp
              (List.mem_of_mem_filter (List.mem_of_mem_take hx))
          simp [scoreArticles_no_empty_embedding qe _ x hx2]

/-- The error classes the OpenAI client raises, as distinguished by the
`except` clauses in `openai_summarizer.py`: `RateLimitError`,
`APIConnectionError`, `APIError`, and anything else. -/
inductive RawErr
  | rateLimit
  | connection
  | api
  | other

/-- The exception classes that can propagate out of the wrapper
functions to their callers: the distinguished `RateLimitError` class
versus a plain `Exception`. -/
inductive PyExc
  | rateLimitError
  | generic

/-- `summarize_single_article(title, content)`
(`openai_summarizer.py:25-90`), given the chat-completions
collaborator's outcome for this call.  Empty content returns the fixed
fallback string without calling the collaborator (lines 42-44).  Each
`except` clause — including the `RateLimitError` one at lines 79-81 —
re-raises a plain `Exception`, so the propagated class is always
generic.  (The `client is None` guard cannot fire inside an enrichment
run, which checks the client first; see `process_new_articles`.) -/
def summarize_single_article (api : Except RawErr String)
    (title content : String) : Except PyExc String :=
  if content = "" then Except.ok "No content available for summarization."
  else
    match api with
    | Except.ok summary => Except.ok summary
    | Except.error RawErr.rateLimit => Except.error PyExc.generic
    | Except.error RawErr.connection => Except.error PyExc.generic
    | Except.error RawErr.api => Except.error PyExc.generic
    | Except.error RawErr.other => Except.error PyExc.generic

/-- `generate_embedding(text)` (`openai_summarizer.py:93-143`), given the
embeddings collaborator as a function of the (truncated) input text.
Empty text returns `[]` without calling the collaborator (lines
109-111); text beyond 30000 characters is truncated first (lines
114-116).  As in `summarize_single_article`, every `except` clause —
including `RateLimitError` at lines 132-134 — re-raises a plain
`Exception`. -/
def generate_embedding (api : String → Except RawErr (List ℝ))
    (text : String) : Except PyExc (List ℝ) :=
  if text = "" then Except.ok []
  else
    let truncated_text :=
      if text.length > 30000 then String.mk (text.data.take 30000) else text
    match api truncated_text with
    | Except.ok embedding => Except.ok embedding
    | Except.error RawErr.rateLimit => Except.error PyExc.generic
    | Except.error RawErr.connection => Except.error PyExc.generic
    | Except.error RawErr.api => Except.error PyExc.generic
    | Except.error RawErr.other => Except.error PyExc.generic

/-- Python truthiness `not article.summary`: absent or empty string. -/
def summaryMissing (a : Article) : Bool :=
  match a.summary with
  | none => true
  | some s => s == ""

/-- Python truthiness `not article.embedding`: absent or empty vector. -/
def embeddingMissing (a : Article) : Bool :=
  match a.embedding with
  | none => true
  | some [] => true
  | some (_ :: _) => false

/-- The enrichment queue condition (`openai_summarizer.py:348-351`):
summary absent or empty, or embedding absent. -/
def needsEnrichment (a : Article) : Bool :=
  summaryMissing a || a.embedding.isNone

/-- The body of the per-article `try` block
(`openai_summarizer.py:362-384`): generate the summary if missing, then
the embedding if missing (over `title + "\n\n" + content`), yielding the
updated article or the exception that aborted it. -/
def enrichArticle (sumApi : String → String → Except RawErr String)
    (embApi : String → Except RawErr (List ℝ)) (a : Article) :
    Except PyExc Article :=
  match (if summaryMissing a
         then (summarize_single_article (sumApi a.title a.content)
                a.title a.content).map (fun s => { a with summary := some s })
         else Except.ok a) with
  | Except.error e => Except.error e
  | Except.ok a1 =>
    if embeddingMissing a1 then
      (generate_embedding embApi (a1.title ++ "\n\n" ++ a1.content)).map
        (fun e => { a1 with embedding := some e })
    else Except.ok a1

/-- `db_session.commit()` after an article's updates
(`openai_summarizer.py:378`): replace the stored row (identified by its
unique `link`) with the updated record. -/
def commitUpdate (store : List Article) (a : Article) : List Article :=
  store.map (fun b => if b.link == a.link then a else b)

/-- The `for article in articles_without_summary` loop of
`process_new_articles` (`openai_summarizer.py:361-394`).  On success the
article is committed and counted.  The `except RateLimitError` clause
(lines 386-389) rolls back and leaves the loop; the `except Exception`
clause (lines 390-394) rolls back — discarding only the pending
uncommitted updates — and continues with the next article. -/
def processLoop (sumApi : String → String → Except RawErr String)
    (embApi : String → Except RawErr (List ℝ)) :
    List Article → List Article → Nat → List Article × Nat
  | [], store, n => (store, n)
  | a :: rest, store, n =>
    match enrichArticle sumApi embApi a with
    | Except.ok a2 => processLoop sumApi embApi rest (commitUpdate store a2) (n + 1)
    | Except.error PyExc.rateLimitError => (store, n)
    | Except.error PyExc.generic => processLoop sumApi embApi rest store n

/-- `process_new_articles(db_session, limit)`
(`openai_summarizer.py:331-402`): guard on the client, query up to
`limit` articles needing enrichment, run the loop; returns the final
store together with the processed count. -/
def process_new_articles (clientOk : Bool)
    (sumApi : String → String → Except RawErr String)
    (embApi : String → Except RawErr (List ℝ))
    (store : List Article) (lim : Nat) : List Article × Nat :=
  if !clientOk then (store, 0)
  else processLoop sumApi embApi ((store.filter needsEnrichment).take lim)
    store 0

/-- Is this outcome a propagating `RateLimitError`? -/
def isRateLimitExc {α : Type} (r : Except PyExc α) : Bool :=
  match r with
  | Except.error PyExc.rateLimitError => true
  | _ => false

/-- C1 (the code against the claim): both collaborator wrappers re-raise
every failure — the rate-limit class included — as a plain generic
exception, so the `except RateLimitError` break of `process_new_articles`
can never fire.  Concretely, on a three-article queue whose second
summary call is rate-limited, the run does not stop: the first article's
committed enrichment persists, the second article's pending changes are
rolled back, and the third article is still processed, returning count
`2` where the claim requires the remaining queue to be skipped. -/
theorem rate_limit_does_not_stop_queue :
    (∀ (api : Except RawErr String) (title content : String),
      isRateLimitExc (summarize_single_article api title content) = false)
    ∧ (∀ (api : String → Except RawErr (List ℝ)) (text : String),
      isRateLimitExc (generate_embedding api text) = false)
    ∧ process_new_articles true
        (fun t _ => if t = "B" then Except.error RawErr.rateLimit
                    else Except.ok "S")
        (fun _ => Except.ok [])
        [⟨"A", "lA", "s", none, "cA", none, none⟩,
         ⟨"B", "lB", "s", none, "cB", none, none⟩,
         ⟨"C", "lC", "s", none, "cC", none, none⟩] 50
      = ([⟨"A", "lA", "s", none, "cA", some "S", some []⟩,
          ⟨"B", "lB", "s", none, "cB", none, none⟩,
          ⟨"C", "lC", "s", none, "cC", some "S", some []⟩], 2) := by
  refine ⟨?_, ?_, ?_⟩
  · intro api title content
    unfold summarize_single_article
    by_cases h : content = ""
    · rw [if_pos h]; rfl
    · rw [if_neg h]
      match api with
      | Except.ok s => rfl
      | Except.error RawErr.rateLimit => rfl
      | Except.error RawErr.connection => rfl
      | Except.error RawErr.api => rfl
      | Except.error RawErr.other => rfl
  · intro api text
    unfold generate_embedding
    by_cases h : text = ""
    · rw [if_pos h]; rfl
    · rw [if_neg h]
      dsimp only
      rcases api (if text.length > 30000
          then String.mk (text.data.take 30000) else text) with err | e
      · cases err <;> rfl
      · rfl
  · rfl

/-- Case-insensitive character comparison, as under `re.IGNORECASE`. -/
def lowEq (p c : Char) : Bool := p.toLower == c.toLower

/-- Match a literal pattern case-insensitively at the head of the text,
returning the suffix after the match. -/
def matchCI : List Char → List Char → Option (List Char)
  | [], cs => some cs
  | _ :: _, [] => none
  | p :: ps, c :: cs => if lowEq p c then matchCI ps cs else none

/-- Consume `[^>]*>`: everything up to and including the first `>`
(failing when no `>` remains). -/
def afterGt : List Char → Option (List Char)
  | [] => none
  | c :: cs => if c = '>' then some cs else afterGt cs

/-- The non-greedy `.*?</tag>` under `re.DOTALL | re.IGNORECASE`: skip to
the first case-insensitive occurrence of `</tag>` and return the suffix
after it. -/
def afterClose (tag : List Char) : List Char → Option (List Char)
  | [] => none
  | c :: cs =>
    match matchCI ('<' :: '/' :: (tag ++ ['>'])) (c :: cs) with
    | some rest => some rest
    | none => afterClose tag cs

theorem matchCI_length :
    ∀ (p cs rest : List Char), matchCI p cs = some rest →
      rest.length + p.length = cs.length := by
  intro p
  induction p with
  | nil =>
    intro cs rest h
    simp only [matchCI, Option.some.injEq] at h
    simp [← h]
  | cons p ps ih =>
    intro cs rest h
    cases cs with
    | nil => simp [matchCI] at h
    | cons c cs' =>
      rw [matchCI] at h
      by_cases hc : lowEq p c = true
      · rw [if_pos hc] at h
        have := ih cs' rest h
        simp only [List.length_cons]
        omega
      · rw [if_neg hc] at h
        cases h

theorem afterGt_length :
    ∀ (cs rest : List Char), afterGt cs = some rest →
      rest.length < cs.length := by
  intro cs
  induction cs with
  | nil => intro rest h; simp [afterGt] at h
  | cons c cs' ih =>
    intro rest h
    rw [afterGt] at h
    by_cases hc : c = '>'
    · rw [if_pos hc, Option.some.injEq] at h
      simp [← h, Nat.lt_succ_self]
    · rw [if_neg hc] at h
      exact Nat.lt_succ_of_lt (ih rest h)

theorem afterClose_length (tag : List Char) :
    ∀ (cs rest : List Char), afterClose tag cs = some rest →
      rest.length < cs.length := by
  intro cs
  induction cs with
  | nil => intro rest h; simp [afterClose] at h
  | cons c cs' ih =>
    intro rest h
    rw [afterClose] at h
    cases hm : matchCI ('<' :: '/' :: (tag ++ ['>'])) (c :: cs') with
    | some rest0 =>
      rw [hm, Option.some.injEq] at h
      have := matchCI_length _ _ _ hm
      subst h
      simp only [List.length_cons, List.length_append] at this ⊢
      omega
    | none =>
      rw [hm] at h
      exact Nat.lt_succ_of_lt (ih rest h)

/-- The attempted match of the whole pattern `<tag[^>]*>.*?</tag>` at
the current position: the opening literal `<tag` (case-insensitive), the
greedy attribute run up to `>`, then the nearest closing `</tag>`;
returns the suffix after the matched block, or `none` when the pattern
does not match here. -/
def blockEnd (tag : List Char) (cs : List Char) : Option (List Char) :=
  match matchCI ('<' :: tag) cs with
  | none => none
  | some afterName =>
    match afterGt afterName with
    | none => none
    | some afterOpen => afterClose tag afterOpen

theorem blockEnd_length (tag : List Char) (cs rest : List Char)
    (h : blockEnd tag cs = some rest) : rest.length < cs.length := by
  unfold blockEnd at h
  cases h1 : matchCI ('<' :: tag) cs with
  | none => rw [h1] at h; cases h
  | some afterName =>
    rw [h1] at h
    dsimp only at h
    cases h2 : afterGt afterName with
    | none => rw [h2] at h; cases h
    | some afterOpen =>
      rw [h2] at h
      have e1 := matchCI_length _ _ _ h1
      have e2 := afterGt_length _ _ h2
      have e3 := afterClose_length _ _ _ h
      simp only [List.length_cons] at e1
      omega

/-- One pass of `re.sub(r'<tag[^>]*>.*?</tag>', '', text, flags=DOTALL |
IGNORECASE)` (`rss_parser.py:41-42`): scan left to right; where the
pattern matches, the whole block is dropped and scanning resumes after
it, otherwise the character is kept and the scan advances one
position. -/
def removeBlocks (tag : List Char) (cs : List Char) : List Char :=
  match cs with
  | [] => []
  | c :: rest0 =>
    match h : blockEnd tag (c :: rest0) with
    | some rest => removeBlocks tag rest
    | none => c :: removeBlocks tag rest0
  termination_by cs.length
  decreasing_by
  · exact blockEnd_length tag _ _ h
  · simp [Nat.lt_succ_self]

/-- Consume `[^>]+>` after a `<`: at least one non-`>` character, then
everything up to and including the first `>`. -/
def tagEnd : List Char → Option (List Char)
  | [] => none
  | c :: cs => if c = '>' then none else afterGt cs

theorem tagEnd_length :
    ∀ (cs rest : List Char), tagEnd cs = some rest →
      rest.length < cs.length := by
  intro cs rest h
  cases cs with
  | nil => simp [tagEnd] at h
  | cons c cs' =>
    rw [tagEnd] at h
    by_cases hc : c = '>'
    · rw [if_pos hc] at h; cases h
    · rw [if_neg hc] at h
      exact Nat.lt_succ_of_lt (afterGt_length _ _ h)

/-- `re.sub(r'<[^>]+>', '', text)` (`rss_parser.py:45`): strip every
remaining markup tag. -/
def stripTags (cs : List Char) : List Char :=
  match cs with
  | [] => []
  | c :: rest0 =>
    if c = '<' then
      match h : tagEnd rest0 with
      | some rest => stripTags rest
      | none => c :: stripTags rest0
    else c :: stripTags rest0
  termination_by cs.length
  decreasing_by
  · have := tagEnd_length _ _ h
    simp only [List.length_cons]
    omega
  · simp [Nat.lt_succ_self]
  · simp [Nat.lt_succ_self]

/-- The named character references recognized by the model of Python's
`html.unescape` (`rss_parser.py:48`).  The stdlib table has thousands of
entries; this model carries the common ones the spec names.  Every
theorem below passes entity-free text (or the same text on both sides)
through this stage, so the restriction is immaterial to the claims. -/
def entityTable : List (List Char × Char) :=
  [(['a', 'm', 'p', ';'], '&'), (['l', 't', ';'], '<'),
   (['g', 't', ';'], '>'), (['q', 'u', 'o', 't', ';'], '"'),
   (['n', 'b', 's', 'p', ';'], '\xa0')]

/-- Try each table entry as a prefix of the text following a `&`. -/
def findEntity : List (List Char × Char) → List Char →
    Option (Char × List Char)
  | [], _ => none
  | (p, r) :: table, cs =>
    if p.isPrefixOf cs then some (r, cs.drop p.length)
    else findEntity table cs

theorem findEntity_length :
    ∀ (table : List (List Char × Char)) (cs : List Char) (r : Char)
      (rest : List Char), findEntity table cs = some (r, rest) →
      rest.length ≤ cs.length := by
  intro table
  induction table with
  | nil => intro cs r rest h; simp [findEntity] at h
  | cons pr table ih =>
    intro cs r rest h
    rw [findEntity] at h
    by_cases hp : pr.1.isPrefixOf cs = true
    · rw [if_pos hp, Option.some.injEq] at h
      have : rest = cs.drop pr.1.length := congrArg Prod.snd h.symm
      rw [this, List.length_drop]
      omega
    · rw [if_neg hp] at h
      exact ih cs r rest h

/-- Model of `html.unescape(text)` (`rss_parser.py:48`) over
`entityTable`: decode recognized character references, leave every other
character — including an unrecognized `&` — untouched. -/
def unescapeChars (cs : List Char) : List Char :=
  match cs with
  | [] => []
  | c :: rest0 =>
    if c = '&' then
      match h : findEntity entityTable rest0 with
      | some (r, rest) => r :: unescapeChars rest
      | none => c :: unescapeChars rest0
    else c :: unescapeChars rest0
  termination_by cs.length
  decreasing_by
  · have := findEntity_length _ _ _ _ h
    simp only [List.length_cons]
    omega
  · simp [Nat.lt_succ_self]
  · simp [Nat.lt_succ_self]

/-- `re.sub(r'\s+', ' ', text)` (`rss_parser.py:51`): each maximal run of
whitespace becomes one space. -/
def collapseWs (cs : List Char) : List Char :=
  match cs with
  | [] => []
  | c :: rest0 =>
    if isPySpace c then ' ' :: collapseWs (rest0.dropWhile isPySpace)
    else c :: collapseWs rest0
  termination_by cs.length
  decreasing_by
  · simp only [List.length_cons]
    exact Nat.lt_succ_of_le (List.Sublist.length_le (List.dropWhile_sublist _))
  · simp [Nat.lt_succ_self]

/-- `text.strip()` (`rss_parser.py:54`) on the character list. -/
def stripChars (l : List Char) : List Char :=
  ((l.dropWhile isPySpace).reverse.dropWhile isPySpace).reverse

/-- The literal tag `script` of the first substitution. -/
def scriptTag : List Char := ['s', 'c', 'r', 'i', 'p', 't']

/-- The literal tag `style` of the second substitution. -/
def styleTag : List Char := ['s', 't', 'y', 'l', 'e']

/-- `clean_html(text)` (`rss_parser.py:27-56`) on characters: drop script
blocks with their contents, then style blocks, strip remaining tags,
decode entities, collapse whitespace runs, trim.  The empty list mirrors
the falsy-input early return. -/
def cleanChars (l : List Char) : List Char :=
  stripChars (collapseWs (unescapeChars (stripTags
    (removeBlocks styleTag (removeBlocks scriptTag l)))))

/-- `clean_html` on Lean strings. -/
def clean_html (s : String) : String :=
  String.mk (cleanChars s.data)

theorem toLower_ne_lt {c : Char} (h : c ≠ '<') : c.toLower ≠ '<' := by
  intro heq
  apply h
  simp only [Char.toLower] at heq
  by_cases hc : c.toNat ≥ 65 ∧ c.toNat ≤ 90
  · exfalso
    rw [if_pos hc] at heq
    have hv : (c.toNat + 32).isValidChar := Or.inl (by omega)
    have ht : (Char.ofNat (c.toNat + 32)).toNat = c.toNat + 32 := by
      rw [Char.ofNat, dif_pos hv]; rfl
    rw [heq] at ht
    have h60 : ('<' : Char).toNat = 60 := rfl
    omega
  · rw [if_neg hc] at heq
    exact heq

theorem lowEq_lt_eq_false {c : Char} (h : c ≠ '<') : lowEq '<' c = false := by
  unfold lowEq
  have h1 : ('<' : Char).toLower = '<' := rfl
  rw [h1]
  exact beq_eq_false_iff_ne.mpr (fun he => toLower_ne_lt h he.symm)

theorem matchCI_none_of_head_ne (tag : List Char) {c : Char} (h : c ≠ '<')
    (cs : List Char) : matchCI ('<' :: tag) (c :: cs) = none := by
  rw [matchCI, lowEq_lt_eq_false h]
  simp

theorem matchCI_self : ∀ (p cs : List Char), matchCI p (p ++ cs) = some cs := by
  intro p
  induction p with
  | nil => intro cs; rfl
  | cons p ps ih =>
    intro cs
    rw [List.cons_append, matchCI, lowEq]
    simp [ih]

theorem removeBlocks_nil (tag : List Char) : removeBlocks tag [] = [] := by
  rw [removeBlocks.eq_def]

theorem blockEnd_none_of_head_ne (tag : List Char) {c : Char} (h : c ≠ '<')
    (cs : List Char) : blockEnd tag (c :: cs) = none := by
  unfold blockEnd
  rw [matchCI_none_of_head_ne tag h cs]

theorem removeBlocks_cons_nomatch (tag : List Char) (c : Char)
    (rest0 : List Char) (h : blockEnd tag (c :: rest0) = none) :
    removeBlocks tag (c :: rest0) = c :: removeBlocks tag rest0 := by
  rw [removeBlocks.eq_def]
  dsimp only
  split <;> simp_all

theorem removeBlocks_cons_block (tag : List Char) (c : Char)
    (rest0 rest : List Char)
    (h : blockEnd tag (c :: rest0) = some rest) :
    removeBlocks tag (c :: rest0) = removeBlocks tag rest := by
  rw [removeBlocks.eq_def]
  dsimp only
  split <;> simp_all

theorem removeBlocks_no_lt (tag : List Char) :
    ∀ (pre rest : List Char), (∀ c ∈ pre, c ≠ '<') →
      removeBlocks tag (pre ++ rest) = pre ++ removeBlocks tag rest := by
  intro pre
  induction pre with
  | nil => intro rest _; simp
  | cons c pre' ih =>
    intro rest h
    have hc : c ≠ '<' := h c (List.mem_cons_self c pre')
    rw [List.cons_append,
      removeBlocks_cons_nomatch tag c _ (blockEnd_none_of_head_ne tag hc _),
      ih rest (fun d hd => h d (List.mem_cons_of_mem c hd)), List.cons_append]

theorem removeBlocks_id (tag : List Char) (l : List Char)
    (h : ∀ c ∈ l, c ≠ '<') : removeBlocks tag l = l := by
  have := removeBlocks_no_lt tag l [] h
  simpa [removeBlocks_nil] using this

theorem afterClose_finds (tag : List Char) :
    ∀ (inner post : List Char), (∀ c ∈ inner, c ≠ '<') →
      afterClose tag (inner ++ (('<' :: '/' :: (tag ++ ['>'])) ++ post))
        = some post := by
  intro inner
  induction inner with
  | nil =>
    intro post _
    rw [List.nil_append, List.cons_append, afterClose]
    have hm := matchCI_self ('<' :: '/' :: (tag ++ ['>'])) post
    simp only [List.cons_append, List.append_assoc, List.singleton_append]
      at hm ⊢
    rw [hm]
  | cons c inner' ih =>
    intro post h
    have hc : c ≠ '<' := h c (List.mem_cons_self c inner')
    rw [List.cons_append, afterClose]
    have hm : matchCI ('<' :: '/' :: (tag ++ ['>']))
        (c :: (inner' ++ (('<' :: '/' :: (tag ++ ['>'])) ++ post))) = none :=
      matchCI_none_of_head_ne _ hc _
    rw [hm]
    exact ih post (fun d hd => h d (List.mem_cons_of_mem c hd))

theorem blockEnd_block (tag : List Char) (inner post : List Char)
    (hinner : ∀ c ∈ inner, c ≠ '<') :
    blockEnd tag
        ('<' :: ((tag ++ ['>'])
          ++ (inner ++ (('<' :: '/' :: (tag ++ ['>'])) ++ post))))
      = some post := by
  unfold blockEnd
  have h1 := matchCI_self ('<' :: tag)
    ('>' :: (inner ++ (('<' :: '/' :: (tag ++ ['>'])) ++ post)))
  rw [List.cons_append] at h1
  have hsh : tag ++ ('>' :: (inner ++ (('<' :: '/' :: (tag ++ ['>'])) ++ post)))
      = (tag ++ ['>']) ++ (inner ++ (('<' :: '/' :: (tag ++ ['>'])) ++ post)) := by
    simp [List.append_assoc]
  rw [hsh] at h1
  rw [h1]
  dsimp only
  have h2 : afterGt ('>' :: (inner ++ (('<' :: '/' :: (tag ++ ['>'])) ++ post)))
      = some (inner ++ (('<' :: '/' :: (tag ++ ['>'])) ++ post)) := by
    rw [afterGt]; simp
  rw [h2]
  exact afterClose_finds tag inner post hinner

theorem removeBlocks_block (tag : List Char) (inner post : List Char)
    (hinner : ∀ c ∈ inner, c ≠ '<') :
    removeBlocks tag
        (('<' :: (tag ++ ['>']))
          ++ (inner ++ (('<' :: '/' :: (tag ++ ['>'])) ++ post)))
      = removeBlocks tag post := by
  rw [List.cons_append]
  exact removeBlocks_cons_block tag '<' _ post
    (blockEnd_block tag inner post hinner)

theorem removeBlocks_cons_ne (tag : List Char) (c : Char) (cs : List Char)
    (h : c ≠ '<') : removeBlocks tag (c :: cs) = c :: removeBlocks tag cs :=
  removeBlocks_cons_nomatch tag c cs (blockEnd_none_of_head_ne tag h cs)

theorem stripTags_nil : stripTags [] = [] := by
  rw [stripTags.eq_def]

theorem stripTags_cons_ne (c : Char) (cs : List Char) (h : c ≠ '<') :
    stripTags (c :: cs) = c :: stripTags cs := by
  rw [stripTags.eq_def]
  dsimp only
  rw [if_neg h]

theorem stripTags_id (l : List Char) (h : ∀ c ∈ l, c ≠ '<') :
    stripTags l = l := by
  induction l with
  | nil => exact stripTags_nil
  | cons c cs ih =>
    rw [stripTags_cons_ne c cs (h c (List.mem_cons_self c cs)),
      ih (fun d hd => h d (List.mem_cons_of_mem c hd))]

theorem unescapeChars_nil : unescapeChars [] = [] := by
  rw [unescapeChars.eq_def]

theorem unescapeChars_cons_ne (c : Char) (cs : List Char) (h : c ≠ '&') :
    unescapeChars (c :: cs) = c :: unescapeChars cs := by
  rw [unescapeChars.eq_def]
  dsimp only
  rw [if_neg h]

theorem unescapeChars_id (l : List Char) (h : ∀ c ∈ l, c ≠ '&') :
    unescapeChars l = l := by
  induction l with
  | nil => exact unescapeChars_nil
  | cons c cs ih =>
    rw [unescapeChars_cons_ne c cs (h c (List.mem_cons_self c cs)),
      ih (fun d hd => h d (List.mem_cons_of_mem c hd))]

theorem collapseWs_nil : collapseWs [] = [] := by
  rw [collapseWs.eq_def]

theorem collapseWs_cons_not_space (c : Char) (cs : List Char)
    (h : isPySpace c = false) : collapseWs (c :: cs) = c :: collapseWs cs := by
  rw [collapseWs.eq_def]
  dsimp only
  rw [if_neg (by simp [h])]

theorem collapseWs_id (l : List Char) (h : ∀ c ∈ l, isPySpace c = false) :
    collapseWs l = l := by
  induction l with
  | nil => exact collapseWs_nil
  | cons c cs ih =>
    rw [collapseWs_cons_not_space c cs (h c (List.mem_cons_self c cs)),
      ih (fun d hd => h d (List.mem_cons_of_mem c hd))]

theorem dropWhile_id_of_not_space (l : List Char)
    (h : ∀ c ∈ l, isPySpace c = false) : l.dropWhile isPySpace = l := by
  cases l with
  | nil => rfl
  | cons c cs =>
    rw [List.dropWhile_cons, if_neg]
    simp [h c (List.mem_cons_self c cs)]

theorem stripChars_id (l : List Char) (h : ∀ c ∈ l, isPySpace c = false) :
    stripChars l = l := by
  unfold stripChars
  rw [dropWhile_id_of_not_space l h,
    dropWhile_id_of_not_space l.reverse
      (fun c hc => h c (List.mem_reverse.mp hc)),
    List.reverse_reverse]

/-- On text containing no markup, entity or whitespace characters, the
whole normalization pipeline is the identity. -/
theorem cleanChars_plain (l : List Char)
    (h : ∀ c ∈ l, c ≠ '<' ∧ c ≠ '&' ∧ isPySpace c = false) :
    cleanChars l = l := by
  unfold cleanChars
  rw [removeBlocks_id scriptTag l (fun c hc => (h c hc).1),
    removeBlocks_id styleTag l (fun c hc => (h c hc).1),
    stripTags_id l (fun c hc => (h c hc).1),
    unescapeChars_id l (fun c hc => (h c hc).2.1),
    collapseWs_id l (fun c hc => (h c hc).2.2),
    stripChars_id l (fun c hc => (h c hc).2.2)]

/-- A whole `<script ...>...</script>` block (its contents included)
vanishes from the normalized output: the pipeline on
`pre ++ <script> ++ inner ++ </script> ++ post` equals the pipeline on
`pre ++ post`. -/
theorem cleanChars_script_block (pre inner post : List Char)
    (hpre : ∀ c ∈ pre, c ≠ '<') (hinner : ∀ c ∈ inner, c ≠ '<') :
    cleanChars (pre ++ (('<' :: (scriptTag ++ ['>']))
        ++ (inner ++ (('<' :: '/' :: (scriptTag ++ ['>'])) ++ post))))
      = cleanChars (pre ++ post) := by
  unfold cleanChars
  rw [removeBlocks_no_lt scriptTag pre _ hpre,
    removeBlocks_block scriptTag inner post hinner,
    removeBlocks_no_lt scriptTag pre post hpre]

theorem removeBlocks_script_keeps_style (inner post : List Char)
    (hinner : ∀ c ∈ inner, c ≠ '<') :
    removeBlocks scriptTag
        (('<' :: (styleTag ++ ['>']))
          ++ (inner ++ (('<' :: '/' :: (styleTag ++ ['>'])) ++ post)))
      = ('<' :: (styleTag ++ ['>']))
          ++ (inner ++ (('<' :: '/' :: (styleTag ++ ['>']))
            ++ removeBlocks scriptTag post)) := by
  simp only [styleTag, List.cons_append, List.append_assoc,
    List.singleton_append, List.nil_append]
  rw [removeBlocks_cons_nomatch scriptTag '<'
    ('s' :: 't' :: 'y' :: 'l' :: 'e' :: '>' ::
      (inner ++ '<' :: '/' :: 's' :: 't' :: 'y' :: 'l' :: 'e' :: '>' :: post))
    rfl]
  rw [removeBlocks_cons_ne scriptTag 's' _ (by decide)]
  rw [removeBlocks_cons_ne scriptTag 't' _ (by decide)]
  rw [removeBlocks_cons_ne scriptTag 'y' _ (by decide)]
  rw [removeBlocks_cons_ne scriptTag 'l' _ (by decide)]
  rw [removeBlocks_cons_ne scriptTag 'e' _ (by decide)]
  rw [removeBlocks_cons_ne scriptTag '>' _ (by decide)]
  rw [removeBlocks_no_lt scriptTag inner _ hinner]
  rw [removeBlocks_cons_nomatch scriptTag '<'
    ('/' :: 's' :: 't' :: 'y' :: 'l' :: 'e' :: '>' :: post) rfl]
  rw [removeBlocks_cons_ne scriptTag '/' _ (by decide)]
  rw [removeBlocks_cons_ne scriptTag 's' _ (by decide)]
  rw [removeBlocks_cons_ne scriptTag 't' _ (by decide)]
  rw [removeBlocks_cons_ne scriptTag 'y' _ (by decide)]
  rw [removeBlocks_cons_ne scriptTag 'l' _ (by decide)]
  rw [removeBlocks_cons_ne scriptTag 'e' _ (by decide)]
  rw [removeBlocks_cons_ne scriptTag '>' _ (by decide)]

/-- A whole `<style ...>...</style>` block also vanishes: the script
pass leaves it intact and the style pass removes it. -/
theorem cleanChars_style_block (pre inner post : List Char)
    (hpre : ∀ c ∈ pre, c ≠ '<') (hinner : ∀ c ∈ inner, c ≠ '<') :
    cleanChars (pre ++ (('<' :: (styleTag ++ ['>']))
        ++ (inner ++ (('<' :: '/' :: (styleTag ++ ['>'])) ++ post))))
      = cleanChars (pre ++ post) := by
  unfold cleanChars
  rw [removeBlocks_no_lt scriptTag pre _ hpre,
    removeBlocks_script_keeps_style inner post hinner,
    removeBlocks_no_lt styleTag pre _ hpre,
    removeBlocks_block styleTag inner _ hinner,
    removeBlocks_no_lt scriptTag pre post hpre,
    removeBlocks_no_lt styleTag pre _ hpre]

/-- Substring test: does `needle` occur contiguously inside `hay`? -/
def containsSub (needle : List Char) : List Char → Bool
  | [] => needle.isEmpty
  | c :: rest => needle.isPrefixOf (c :: rest) || containsSub needle rest

/-- C7: normalization removes whole script and style blocks together
with their contents — the pipeline on `pre ++ <script> ++ inner ++
</script> ++ post` (or the style analogue) equals the pipeline on
`pre ++ post`, so the block's text never reaches the output — and on the
spec's example the output of `normalize("<script>x</script>Keep")` is
exactly `"Keep"`: it contains `"Keep"` and contains neither `"script"`
nor `"x"`. -/
theorem clean_html_removes_script_style :
    (∀ pre inner post : List Char,
      (∀ c ∈ pre, c ≠ '<') → (∀ c ∈ inner, c ≠ '<') →
      cleanChars (pre ++ (('<' :: (scriptTag ++ ['>']))
          ++ (inner ++ (('<' :: '/' :: (scriptTag ++ ['>'])) ++ post))))
        = cleanChars (pre ++ post)
      ∧ cleanChars (pre ++ (('<' :: (styleTag ++ ['>']))
          ++ (inner ++ (('<' :: '/' :: (styleTag ++ ['>'])) ++ post))))
        = cleanChars (pre ++ post))
    ∧ clean_html "<script>x</script>Keep" = "Keep"
    ∧ containsSub "Keep".data (clean_html "<script>x</script>Keep").data
        = true
    ∧ containsSub "script".data (clean_html "<script>x</script>Keep").data
        = false
    ∧ containsSub "x".data (clean_html "<script>x</script>Keep").data
        = false := by
  have hconc : clean_html "<script>x</script>Keep" = "Keep" := by
    have hdata : "<script>x</script>Keep".data
        = [] ++ (('<' :: (scriptTag ++ ['>']))
            ++ (['x'] ++ (('<' :: '/' :: (scriptTag ++ ['>']))
              ++ "Keep".data))) := by decide
    unfold clean_html
    rw [hdata, cleanChars_script_block [] ['x'] "Keep".data
      (by intro c hc; cases hc) (by decide)]
    rw [List.nil_append, cleanChars_plain "Keep".data (by decide)]
  refine ⟨fun pre inner post hpre hinner =>
      ⟨cleanChars_script_block pre inner post hpre hinner,
       cleanChars_style_block pre inner post hpre hinner⟩,
    hconc, ?_, ?_, ?_⟩ <;> rw [hconc] <;> decide

/-- Witness for `clean_html_removes_script_style` on a concrete
one-character prefix, script body and suffix. -/
theorem clean_html_removes_script_style_witness :
    (∀ c ∈ ['A'], c ≠ '<') ∧ (∀ c ∈ ['z'], c ≠ '<')
    ∧ cleanChars (['A'] ++ (('<' :: (scriptTag ++ ['>']))
        ++ (['z'] ++ (('<' :: '/' :: (scriptTag ++ ['>'])) ++ ['B']))))
      = cleanChars (['A'] ++ ['B']) :=
  ⟨by decide, by decide,
   (clean_html_removes_script_style.1 ['A'] ['z'] ['B']
     (by decide) (by decide)).1⟩

/-- The excerpt cap of `parse_single_feed` (`rss_parser.py:188-192`):
content longer than 250 characters is sliced to its first 250 characters
(Python `[:250]`) with the ellipsis marker appended. -/
def truncateContent (s : String) : String :=
  if s.length > 250 then String.mk (s.data.take 250) ++ "..." else s

/-- The content stored on a candidate (`rss_parser.py:186-192`): the
normalized content, capped. -/
def storedContent (raw : String) : String :=
  truncateContent (clean_html raw)

/-- C8: the stored content is the normalized content unchanged when its
length is at most 250, and otherwise exactly its first 250 characters
followed by `"..."`, for a stored length of exactly 253. -/
theorem content_truncation :
    ∀ (raw : String) (s1 s2 : String),
      s1.length ≤ 250 → 250 < s2.length →
      storedContent raw = truncateContent (clean_html raw)
      ∧ truncateContent s1 = s1
      ∧ truncateContent s2 = String.mk (s2.data.take 250) ++ "..."
      ∧ (truncateContent s2).length = 253 := by
  intro raw s1 s2 h1 h2
  have htr : truncateContent s2 = String.mk (s2.data.take 250) ++ "..." := by
    unfold truncateContent
    rw [if_pos h2]
  refine ⟨rfl, ?_, htr, ?_⟩
  · unfold truncateContent
    rw [if_neg (by omega)]
  · rw [htr, String.length_append]
    have hl : (String.mk (s2.data.take 250)).length = 250 := by
      show (s2.data.take 250).length = 250
      rw [List.length_take]
      have : s2.data.length = s2.length := rfl
      omega
    rw [hl]
    rfl

/-- Witness for `content_truncation`: a short string kept verbatim and a
251-character string capped at length 253. -/
theorem content_truncation_witness :
    ("abc" : String).length ≤ 250
    ∧ 250 < (String.mk (List.replicate 251 'a')).length
    ∧ truncateContent "abc" = "abc"
    ∧ (truncateContent (String.mk (List.replicate 251 'a'))).length = 253 := by
  have hlen : (String.mk (List.replicate 251 'a')).length = 251 := by
    show (List.replicate 251 'a').length = 251
    rw [List.length_replicate]
  have h := content_truncation "hi" "abc" (String.mk (List.replicate 251 'a'))
    (by decide) (by rw [hlen]; omega)
  exact ⟨by decide, by rw [hlen]; omega, h.2.1, h.2.2.2⟩

end NewsAgg
